import Mathlib

/-!
# Verification of the listing-matcher pipeline (src/app/matcher.py)

Shallow embedding of the matching service in `src/app/matcher.py`.

Modelling conventions:
* Python strings are `List Char` (`Str`); `str.lower()` is modelled by
  `Char.toLower` (ASCII case folding; locale/Unicode case folding is outside
  the model, and the spec explicitly requires "no locale-specific casing").
* Python floats are modelled as exact rationals `ℚ`; the arithmetic the
  pipeline performs (affine rescaling of cosine similarities) is exact in the
  reference deployment up to float rounding, which is outside the model.
* The SQLAlchemy data store is modelled as in-memory lists of typed rows
  (`Property`, `Listing`); `select ... where` clauses become `List.filterMap`
  over those rows in table order, `scalar_one_or_none` raises
  `MultipleResultsFound` exactly when the row list has two or more entries.
* SQL `ILIKE` is modelled as SQL `LIKE` pattern matching (`%`, `_`
  wildcards) after ASCII case folding of both operands.
* The sentence-transformer model is an opaque injected function
  `Embed : Str → Vec` producing rational vectors; `faiss.IndexFlatIP.search`
  with `k = 1` is exact maximum-inner-product search, modelled as the maximum
  inner product over the stored rows together with the first row index
  attaining it.
* The module-level mutable cache `_team_cache` is threaded explicitly: every
  operation takes the cache and returns the (possibly extended) cache.
* Python exceptions that escape a function are modelled with `Except`;
  the `ValueError` raised by `_build_team_index` is `MErr.noPropertiesForTeam`,
  SQLAlchemy's `MultipleResultsFound` is `MErr.multipleResultsFound`, and a
  `KeyError` on the cache dictionary is `MErr.cacheKeyError`.
-/

/-- Python strings, modelled as their character lists. -/
abbrev Str := List Char

/-- Coerce a Lean string literal into the model's string type. -/
def strL (s : String) : Str := s.data

/-- Python truthiness of a string: `""` is falsy, everything else truthy. -/
def truthyStr (s : Str) : Bool := !s.isEmpty

/-- Python truthiness of an `Optional[str]`: `None` and `""` are falsy. -/
def truthyOpt : Option Str → Bool
  | none => false
  | some s => truthyStr s

/-!
## Python `str.split()` / `" ".join(...)` / `str.strip()`
-/

/-- One step of a right fold implementing Python's `str.split()`:
whitespace closes the current token, any other character is prepended to it. -/
def splitStep (c : Char) (ws : List Str) : List Str :=
  if c.isWhitespace then [] :: ws
  else
    match ws with
    | [] => [[c]]
    | w :: rest => (c :: w) :: rest

/-- All (possibly empty) whitespace-delimited chunks of a string, leftmost
first.  The seed `[[]]` is the initially empty current token. -/
def splitChunks (s : Str) : List Str :=
  List.foldr splitStep [[]] s

/-- Python `str.split()` (no separator argument): whitespace-delimited tokens,
with empty chunks discarded. -/
def pySplit (s : Str) : List Str :=
  (splitChunks s).filter (fun w => !w.isEmpty)

/-- Python `" ".join(tokens)`. -/
def joinTokens : List Str → Str
  | [] => []
  | [w] => w
  | w :: ws => w ++ ' ' :: joinTokens ws

/-- Python `str.strip()`: drop leading and trailing whitespace. -/
def pyStrip (s : Str) : Str :=
  ((s.dropWhile Char.isWhitespace).reverse.dropWhile Char.isWhitespace).reverse

/-- `normalize_addr` from `src/app/matcher.py`:
lower-case, trim, squeeze runs of whitespace; `None`/`""` normalize to `""`. -/
def normalize_addr (addr : Option Str) : Str :=
  match addr with
  | none => []
  | some s =>
    if s.isEmpty then []
    else joinTokens (pySplit (s.map Char.toLower))

/-!
### Character-level lemmas about ASCII case folding
-/

theorem char_toNat_ofNat_valid {n : Nat} (h : n.isValidChar) :
    (Char.ofNat n).toNat = n := by
  rw [Char.ofNat, dif_pos h]
  rfl

theorem toLower_eq (c : Char) :
    Char.toLower c = if 65 ≤ c.toNat ∧ c.toNat ≤ 90 then Char.ofNat (c.toNat + 32) else c := by
  simp [Char.toLower, ge_iff_le]

theorem toLower_toNat (c : Char) :
    (Char.toLower c).toNat = if 65 ≤ c.toNat ∧ c.toNat ≤ 90 then c.toNat + 32 else c.toNat := by
  rw [toLower_eq]
  by_cases h : 65 ≤ c.toNat ∧ c.toNat ≤ 90
  · rw [if_pos h, if_pos h]
    have hvalid : (c.toNat + 32).isValidChar := Or.inl (by omega)
    exact char_toNat_ofNat_valid hvalid
  · rw [if_neg h, if_neg h]

theorem toLower_idem (c : Char) : Char.toLower (Char.toLower c) = Char.toLower c := by
  have h1 := toLower_toNat c
  by_cases h : 65 ≤ c.toNat ∧ c.toNat ≤ 90
  · rw [if_pos h] at h1
    rw [toLower_eq (Char.toLower c), if_neg (by omega)]
  · rw [if_neg h] at h1
    rw [toLower_eq (Char.toLower c), h1, if_neg h, toLower_eq c, if_neg h]

theorem toNat_inj_char {a b : Char} (h : a.toNat = b.toNat) : a = b := by
  apply Char.eq_of_val_eq
  apply UInt32.eq_of_toBitVec_eq
  apply BitVec.eq_of_toNat_eq
  exact h

theorem isWhitespace_iff_toNat (c : Char) :
    c.isWhitespace = true ↔ (c.toNat = 32 ∨ c.toNat = 9 ∨ c.toNat = 13 ∨ c.toNat = 10) := by
  constructor
  · intro h
    unfold Char.isWhitespace at h
    simp only [Bool.or_eq_true, decide_eq_true_eq] at h
    rcases h with ((h | h) | h) | h <;> subst h <;> decide
  · intro h
    unfold Char.isWhitespace
    simp only [Bool.or_eq_true, decide_eq_true_eq]
    rcases h with h | h | h | h
    · exact Or.inl (Or.inl (Or.inl (toNat_inj_char (by rw [h]; decide))))
    · exact Or.inl (Or.inl (Or.inr (toNat_inj_char (by rw [h]; decide))))
    · exact Or.inl (Or.inr (toNat_inj_char (by rw [h]; decide)))
    · exact Or.inr (toNat_inj_char (by rw [h]; decide))

theorem toLower_isWhitespace (c : Char) :
    (Char.toLower c).isWhitespace = c.isWhitespace := by
  have h1 := toLower_toNat c
  by_cases h : 65 ≤ c.toNat ∧ c.toNat ≤ 90
  · rw [if_pos h] at h1
    have hc : c.isWhitespace = false := by
      by_contra hcon
      have := (isWhitespace_iff_toNat c).mp (by revert hcon; cases c.isWhitespace <;> simp)
      omega
    have hl : (Char.toLower c).isWhitespace = false := by
      by_contra hcon
      have := (isWhitespace_iff_toNat (Char.toLower c)).mp
        (by revert hcon; cases (Char.toLower c).isWhitespace <;> simp)
      omega
    rw [hc, hl]
  · rw [if_neg h] at h1
    rw [toNat_inj_char h1]

/-!
### Tokenization lemmas: Python `split` / `join` round-trip
-/

/-- A well-formed token: nonempty, and free of whitespace characters. -/
def goodToken (w : Str) : Prop := w ≠ [] ∧ ∀ c ∈ w, c.isWhitespace = false

theorem splitChunks_ne_nil (s : Str) : splitChunks s ≠ [] := by
  induction s with
  | nil => simp [splitChunks]
  | cons c s ih =>
    show splitStep c (splitChunks s) ≠ []
    unfold splitStep
    split
    · simp
    · match h : splitChunks s with
      | [] => simp
      | w :: rest => simp

theorem foldr_splitStep_token (w : Str) (hw : ∀ c ∈ w, c.isWhitespace = false)
    (t : Str) (X : List Str) :
    List.foldr splitStep (t :: X) w = (w ++ t) :: X := by
  induction w with
  | nil => rfl
  | cons c w ih =>
    have hc : c.isWhitespace = false := hw c (List.mem_cons_self c w)
    have ih' := ih (fun d hd => hw d (List.mem_cons_of_mem c hd))
    simp only [List.foldr_cons, ih']
    unfold splitStep
    rw [hc]
    simp

theorem splitChunks_token (w : Str) (hw : ∀ c ∈ w, c.isWhitespace = false) :
    splitChunks w = [w] := by
  have := foldr_splitStep_token w hw [] []
  simpa [splitChunks] using this

theorem splitChunks_token_sep (w : Str) (hw : ∀ c ∈ w, c.isWhitespace = false) (rest : Str) :
    splitChunks (w ++ ' ' :: rest) = w :: splitChunks rest := by
  have hsep : splitChunks (' ' :: rest) = [] :: splitChunks rest := by
    show splitStep ' ' (splitChunks rest) = [] :: splitChunks rest
    unfold splitStep
    rw [if_pos (by decide)]
  calc splitChunks (w ++ ' ' :: rest)
      = List.foldr splitStep (splitChunks (' ' :: rest)) w := by
        simp [splitChunks, List.foldr_append]
    _ = List.foldr splitStep ([] :: splitChunks rest) w := by rw [hsep]
    _ = (w ++ []) :: splitChunks rest := foldr_splitStep_token w hw _ _
    _ = w :: splitChunks rest := by simp

theorem splitChunks_chars (s : Str) :
    ∀ w ∈ splitChunks s, ∀ c ∈ w, c.isWhitespace = false := by
  induction s with
  | nil =>
    intro w hw c hc
    simp [splitChunks] at hw
    subst hw
    simp at hc
  | cons d s ih =>
    intro w hw c hc
    have hstep : splitChunks (d :: s) = splitStep d (splitChunks s) := rfl
    rw [hstep] at hw
    unfold splitStep at hw
    by_cases hd : d.isWhitespace = true
    · rw [if_pos hd] at hw
      rcases List.mem_cons.mp hw with h | h
      · subst h; simp at hc
      · exact ih w h c hc
    · rw [if_neg hd] at hw
      obtain ⟨p, rest, hps⟩ := List.exists_cons_of_ne_nil (splitChunks_ne_nil s)
      rw [hps] at hw
      rcases List.mem_cons.mp hw with h | h
      · subst h
        rcases List.mem_cons.mp hc with h | h
        · subst h; simpa using hd
        · exact ih p (hps ▸ List.mem_cons_self p rest) c h
      · exact ih w (hps ▸ List.mem_cons_of_mem p h) c hc

theorem splitChunks_chars_mem (s : Str) :
    ∀ w ∈ splitChunks s, ∀ c ∈ w, c ∈ s := by
  induction s with
  | nil =>
    intro w hw c hc
    simp [splitChunks] at hw
    subst hw
    simp at hc
  | cons d s ih =>
    intro w hw c hc
    have hstep : splitChunks (d :: s) = splitStep d (splitChunks s) := rfl
    rw [hstep] at hw
    unfold splitStep at hw
    by_cases hd : d.isWhitespace = true
    · rw [if_pos hd] at hw
      rcases List.mem_cons.mp hw with h | h
      · subst h; simp at hc
      · exact List.mem_cons_of_mem d (ih w h c hc)
    · rw [if_neg hd] at hw
      obtain ⟨p, rest, hps⟩ := List.exists_cons_of_ne_nil (splitChunks_ne_nil s)
      rw [hps] at hw
      rcases List.mem_cons.mp hw with h | h
      · subst h
        rcases List.mem_cons.mp hc with h | h
        · subst h; exact List.mem_cons_self c s
        · exact List.mem_cons_of_mem d (ih p (hps ▸ List.mem_cons_self p rest) c h)
      · exact List.mem_cons_of_mem d (ih w (hps ▸ List.mem_cons_of_mem p h) c hc)

theorem pySplit_goodTokens (s : Str) : ∀ w ∈ pySplit s, goodToken w := by
  intro w hw
  unfold pySplit at hw
  have hmem := List.mem_of_mem_filter hw
  have hne : w ≠ [] := by
    have := List.of_mem_filter hw
    simpa [List.isEmpty_iff] using this
  exact ⟨hne, splitChunks_chars s w hmem⟩

theorem pySplit_chars_mem (s : Str) : ∀ w ∈ pySplit s, ∀ c ∈ w, c ∈ s := by
  intro w hw
  exact splitChunks_chars_mem s w (List.mem_of_mem_filter hw)

theorem joinTokens_cons₂ (w x : Str) (ws : List Str) :
    joinTokens (w :: x :: ws) = w ++ ' ' :: joinTokens (x :: ws) := rfl

theorem pySplit_joinTokens (ws : List Str) (h : ∀ w ∈ ws, goodToken w) :
    pySplit (joinTokens ws) = ws := by
  induction ws with
  | nil => simp [joinTokens, pySplit, splitChunks]
  | cons w ws ih =>
    match ws with
    | [] =>
      obtain ⟨hne, hchars⟩ := h w (List.mem_cons_self w [])
      show pySplit (joinTokens [w]) = [w]
      unfold pySplit
      rw [show joinTokens [w] = w from rfl, splitChunks_token w hchars]
      have hval : (!w.isEmpty) = true := by simpa [List.isEmpty_iff] using hne
      simp [List.filter_cons, hval]
    | x :: ws' =>
      obtain ⟨hne, hchars⟩ := h w (List.mem_cons_self w _)
      have ih' := ih (fun v hv => h v (List.mem_cons_of_mem w hv))
      show pySplit (joinTokens (w :: x :: ws')) = w :: x :: ws'
      rw [joinTokens_cons₂]
      unfold pySplit
      rw [splitChunks_token_sep w hchars]
      rw [List.filter_cons]
      simp only [List.isEmpty_iff, hne, Bool.not_eq_true']
      rw [if_pos (by simpa [List.isEmpty_iff] using hne)]
      have : (splitChunks (joinTokens (x :: ws'))).filter (fun v => !v.isEmpty)
          = pySplit (joinTokens (x :: ws')) := rfl
      rw [this, ih']

/-!
### Characterizing `normalize_addr` output
-/

theorem map_fix_of_forall (f : Char → Char) (w : Str) (h : ∀ c ∈ w, f c = c) :
    w.map f = w := by
  induction w with
  | nil => rfl
  | cons c w ih =>
    simp only [List.map_cons]
    rw [h c (List.mem_cons_self c w), ih (fun d hd => h d (List.mem_cons_of_mem c hd))]

theorem map_toLower_joinTokens (ws : List Str) (h : ∀ w ∈ ws, w.map Char.toLower = w) :
    (joinTokens ws).map Char.toLower = joinTokens ws := by
  induction ws with
  | nil => rfl
  | cons w ws ih =>
    match ws with
    | [] => exact h w (List.mem_cons_self w [])
    | x :: ws' =>
      rw [joinTokens_cons₂, List.map_append, List.map_cons]
      rw [h w (List.mem_cons_self w _), show Char.toLower ' ' = ' ' from by decide]
      rw [ih (fun v hv => h v (List.mem_cons_of_mem w hv))]

/-- Every output of `normalize_addr` is a `" "`-join of nonempty,
whitespace-free, already-lower-cased tokens. -/
theorem normalize_addr_tokens (a : Option Str) :
    ∃ ws : List Str, normalize_addr a = joinTokens ws ∧
      ∀ w ∈ ws, goodToken w ∧ w.map Char.toLower = w := by
  match a with
  | none => exact ⟨[], rfl, by simp⟩
  | some s =>
    by_cases hs : s.isEmpty
    · refine ⟨[], ?_, by simp⟩
      simp [normalize_addr, hs, joinTokens]
    · refine ⟨pySplit (s.map Char.toLower), ?_, ?_⟩
      · simp [normalize_addr, hs]
      · intro w hw
        refine ⟨pySplit_goodTokens _ w hw, ?_⟩
        apply map_fix_of_forall
        intro c hc
        have hmem : c ∈ s.map Char.toLower := pySplit_chars_mem _ w hw c hc
        obtain ⟨c₀, _, hc₀⟩ := List.mem_map.mp hmem
        rw [← hc₀]
        exact toLower_idem c₀

theorem joinTokens_ne_nil (w : Str) (ws : List Str) (hw : w ≠ []) :
    joinTokens (w :: ws) ≠ [] := by
  match ws with
  | [] => exact hw
  | x :: ws' =>
    rw [joinTokens_cons₂]
    intro hcon
    exact hw (List.append_eq_nil.mp hcon).1

theorem joinTokens_head_not_ws (ws : List Str) (h : ∀ w ∈ ws, goodToken w) :
    ∀ c, (joinTokens ws).head? = some c → c.isWhitespace = false := by
  intro c hc
  match ws with
  | [] => simp [joinTokens] at hc
  | w :: ws' =>
    obtain ⟨hne, hchars⟩ := h w (List.mem_cons_self w ws')
    obtain ⟨d, w', hw⟩ := List.exists_cons_of_ne_nil hne
    subst hw
    match ws' with
    | [] =>
      simp only [joinTokens, List.head?_cons] at hc
      cases hc
      exact hchars c (List.mem_cons_self c w')
    | x :: ws'' =>
      rw [joinTokens_cons₂] at hc
      simp only [List.cons_append, List.head?_cons] at hc
      cases hc
      exact hchars c (List.mem_cons_self c w')

theorem joinTokens_getLast_not_ws (ws : List Str) (h : ∀ w ∈ ws, goodToken w) :
    ∀ c, (joinTokens ws).getLast? = some c → c.isWhitespace = false := by
  induction ws with
  | nil => intro c hc; simp [joinTokens] at hc
  | cons w ws ih =>
    intro c hc
    obtain ⟨hne, hchars⟩ := h w (List.mem_cons_self w ws)
    match ws with
    | [] =>
      have : c ∈ w := List.mem_of_getLast?_eq_some (by simpa [joinTokens] using hc)
      exact hchars c this
    | x :: ws' =>
      rw [joinTokens_cons₂] at hc
      have hxne : joinTokens (x :: ws') ≠ [] :=
        joinTokens_ne_nil x ws' (h x (List.mem_cons_of_mem w (List.mem_cons_self x ws'))).1
      have hJ : (' ' :: joinTokens (x :: ws')).getLast? = (joinTokens (x :: ws')).getLast? := by
        obtain ⟨j, js, hj⟩ := List.exists_cons_of_ne_nil hxne
        rw [hj]
        exact List.getLast?_cons_cons
      rw [List.getLast?_append_of_ne_nil _ (by simp), hJ] at hc
      exact ih (fun v hv => h v (List.mem_cons_of_mem w hv)) c hc

theorem chain'_of_all_not_ws (w : Str) (h : ∀ c ∈ w, c.isWhitespace = false) :
    List.Chain' (fun x y => ¬(x.isWhitespace = true ∧ y.isWhitespace = true)) w := by
  induction w with
  | nil => simp
  | cons c w ih =>
    rw [List.chain'_cons']
    refine ⟨?_, ih (fun d hd => h d (List.mem_cons_of_mem c hd))⟩
    intro y _
    intro hcon
    have := h c (List.mem_cons_self c w)
    rw [hcon.1] at this
    exact Bool.false_ne_true this.symm

theorem joinTokens_chain' (ws : List Str) (h : ∀ w ∈ ws, goodToken w) :
    List.Chain' (fun x y => ¬(x.isWhitespace = true ∧ y.isWhitespace = true)) (joinTokens ws) := by
  induction ws with
  | nil => simp [joinTokens]
  | cons w ws ih =>
    obtain ⟨hne, hchars⟩ := h w (List.mem_cons_self w ws)
    match ws with
    | [] => exact chain'_of_all_not_ws w hchars
    | x :: ws' =>
      rw [joinTokens_cons₂]
      rw [List.chain'_append]
      refine ⟨chain'_of_all_not_ws w hchars, ?_, ?_⟩
      · rw [List.chain'_cons']
        refine ⟨?_, ih (fun v hv => h v (List.mem_cons_of_mem w hv))⟩
        intro y hy hcon
        have := joinTokens_head_not_ws (x :: ws')
          (fun v hv => h v (List.mem_cons_of_mem w hv)) y hy
        rw [hcon.2] at this
        exact Bool.false_ne_true this.symm
      · intro p hp q hq hcon
        have : p ∈ w := List.mem_of_getLast?_eq_some hp
        have hpw := hchars p this
        rw [hcon.1] at hpw
        exact Bool.false_ne_true hpw.symm

theorem mem_joinTokens (ws : List Str) (c : Char) (hc : c ∈ joinTokens ws) :
    (∃ w ∈ ws, c ∈ w) ∨ c = ' ' := by
  induction ws with
  | nil => simp [joinTokens] at hc
  | cons w ws ih =>
    match ws with
    | [] => exact Or.inl ⟨w, List.mem_cons_self w [], hc⟩
    | x :: ws' =>
      rw [joinTokens_cons₂] at hc
      rcases List.mem_append.mp hc with h | h
      · exact Or.inl ⟨w, List.mem_cons_self w _, h⟩
      · rcases List.mem_cons.mp h with h | h
        · exact Or.inr h
        · rcases ih h with ⟨v, hv, hcv⟩ | h
          · exact Or.inl ⟨v, List.mem_cons_of_mem w hv, hcv⟩
          · exact Or.inr h

/-!
### Idempotence of `normalize_addr`, and strip/truncate facts
-/

theorem normalize_addr_idem (a : Option Str) :
    normalize_addr (some (normalize_addr a)) = normalize_addr a := by
  obtain ⟨ws, hja, hws⟩ := normalize_addr_tokens a
  rw [hja]
  by_cases hempty : (joinTokens ws).isEmpty
  · simp only [normalize_addr, if_pos hempty]
    rw [List.isEmpty_iff] at hempty
    exact hempty.symm
  · simp only [normalize_addr, if_neg hempty]
    rw [map_toLower_joinTokens ws (fun w hw => (hws w hw).2)]
    rw [pySplit_joinTokens ws (fun w hw => (hws w hw).1)]

theorem dropWhile_eq_self_of_head (s : Str) (p : Char → Bool)
    (h : ∀ c, s.head? = some c → p c = false) : s.dropWhile p = s := by
  match s with
  | [] => rfl
  | c :: s' =>
    have := h c rfl
    simp [List.dropWhile, this]

theorem pyStrip_eq_self (s : Str)
    (hhead : ∀ c, s.head? = some c → c.isWhitespace = false)
    (hlast : ∀ c, s.getLast? = some c → c.isWhitespace = false) : pyStrip s = s := by
  unfold pyStrip
  rw [dropWhile_eq_self_of_head s _ hhead]
  rw [dropWhile_eq_self_of_head s.reverse _ (by
    intro c hc
    rw [List.head?_reverse] at hc
    exact hlast c hc)]
  exact List.reverse_reverse s

theorem pyStrip_normalize (a : Option Str) :
    pyStrip (normalize_addr a) = normalize_addr a := by
  obtain ⟨ws, hja, hws⟩ := normalize_addr_tokens a
  rw [hja]
  exact pyStrip_eq_self _ (joinTokens_head_not_ws ws (fun w hw => (hws w hw).1))
    (joinTokens_getLast_not_ws ws (fun w hw => (hws w hw).1))

theorem takeWhile_eq_self_of_not_mem (s : Str) (c₀ : Char) (h : c₀ ∉ s) :
    s.takeWhile (fun c => c != c₀) = s := by
  rw [List.takeWhile_eq_self_iff]
  intro x hx
  simp only [bne_iff_ne, ne_eq]
  intro hcon
  exact h (hcon ▸ hx)

/-- C6: the address normalizer is total (a Lean function) and idempotent;
`None` and `""` normalize to `""`; the output is fully lower-cased and has
all whitespace collapsed to single interior ASCII spaces (no non-space
whitespace, no two adjacent whitespace characters, no leading or trailing
whitespace). -/
theorem normalize_addr_spec :
    (∀ a : Option Str, normalize_addr (some (normalize_addr a)) = normalize_addr a)
    ∧ normalize_addr none = []
    ∧ normalize_addr (some []) = []
    ∧ (∀ a : Option Str, (normalize_addr a).map Char.toLower = normalize_addr a)
    ∧ (∀ a : Option Str, ∀ c ∈ normalize_addr a, c.isWhitespace = true → c = ' ')
    ∧ (∀ a : Option Str,
        List.Chain' (fun x y => ¬(x.isWhitespace = true ∧ y.isWhitespace = true))
          (normalize_addr a))
    ∧ (∀ a : Option Str, ∀ c, (normalize_addr a).head? = some c → c.isWhitespace = false)
    ∧ (∀ a : Option Str, ∀ c, (normalize_addr a).getLast? = some c → c.isWhitespace = false) := by
  refine ⟨normalize_addr_idem, rfl, rfl, ?_, ?_, ?_, ?_, ?_⟩
  · intro a
    obtain ⟨ws, hja, hws⟩ := normalize_addr_tokens a
    rw [hja]
    exact map_toLower_joinTokens ws (fun w hw => (hws w hw).2)
  · intro a c hc hws'
    obtain ⟨ws, hja, hws⟩ := normalize_addr_tokens a
    rw [hja] at hc
    rcases mem_joinTokens ws c hc with ⟨w, hw, hcw⟩ | h
    · have := ((hws w hw).1).2 c hcw
      rw [hws'] at this
      exact absurd this.symm Bool.false_ne_true
    · exact h
  · intro a
    obtain ⟨ws, hja, hws⟩ := normalize_addr_tokens a
    rw [hja]
    exact joinTokens_chain' ws (fun w hw => (hws w hw).1)
  · intro a
    obtain ⟨ws, hja, hws⟩ := normalize_addr_tokens a
    rw [hja]
    exact joinTokens_head_not_ws ws (fun w hw => (hws w hw).1)
  · intro a
    obtain ⟨ws, hja, hws⟩ := normalize_addr_tokens a
    rw [hja]
    exact joinTokens_getLast_not_ws ws (fun w hw => (hws w hw).1)

/-!
## SQL `LIKE` / `ILIKE`

`Property.full_address.ilike(norm_addr)` in the source is PostgreSQL `ILIKE`:
case-insensitive `LIKE` pattern matching, where `%` in the pattern matches any
substring and `_` matches any single character.
-/

/-- Does `f` hold of some suffix of the list (including the empty suffix)? -/
def anySuffix (f : Str → Bool) : Str → Bool
  | [] => f []
  | c :: s => f (c :: s) || anySuffix f s

/-- SQL `LIKE`: does the whole string (second argument) match the pattern
(first argument)?  `%` matches any substring, `_` any single character. -/
def likeMatch : Str → Str → Bool
  | [], s => s.isEmpty
  | a :: p, s =>
    if a = '%' then anySuffix (likeMatch p) s
    else
      match s with
      | [] => false
      | c :: s' => (a = '_' || a == c) && likeMatch p s'

/-- SQL `ILIKE`: case-insensitive `LIKE` (modelled with ASCII case folding). -/
def sqlILike (s pattern : Str) : Bool :=
  likeMatch (pattern.map Char.toLower) (s.map Char.toLower)

/-- A wildcard-free `LIKE` pattern matches exactly itself. -/
theorem likeMatch_no_wildcards (p : Str) (hpc : '%' ∉ p) (hus : '_' ∉ p) :
    ∀ s : Str, likeMatch p s = true ↔ s = p := by
  induction p with
  | nil =>
    intro s
    simp [likeMatch, List.isEmpty_iff]
  | cons a p ih =>
    intro s
    have ha : a ≠ '%' := fun h => hpc (h ▸ List.mem_cons_self a p)
    have ha' : a ≠ '_' := fun h => hus (h ▸ List.mem_cons_self a p)
    have ihp := ih (fun h => hpc (List.mem_cons_of_mem a h))
      (fun h => hus (List.mem_cons_of_mem a h))
    match s with
    | [] =>
      simp only [likeMatch, if_neg ha]
      simp
    | c :: s' =>
      simp only [likeMatch, if_neg ha]
      rw [Bool.and_eq_true, Bool.or_eq_true]
      constructor
      · rintro ⟨hac, hrest⟩
        rcases hac with hac | hac
        · exact absurd (by simpa using hac) ha'
        · have : a = c := by simpa using hac
          rw [(ihp s').mp hrest, this]
      · intro h
        injection h with h1 h2
        subst h1
        subst h2
        exact ⟨Or.inr (by simp), (ihp _).mpr rfl⟩

/-- A character whose lower-casing is a non-letter must already be that
character (ASCII lowering only moves code points 65-90 to 97-122). -/
theorem toLower_eq_of_nonletter {c d : Char} (hd : d.toNat < 97 ∨ 122 < d.toNat)
    (h : Char.toLower c = d) : c = d := by
  have htn := toLower_toNat c
  by_cases hr : 65 ≤ c.toNat ∧ c.toNat ≤ 90
  · rw [if_pos hr, h] at htn
    exfalso
    omega
  · rw [toLower_eq, if_neg hr] at h
    exact h

/-- For a wildcard-free pattern, `ILIKE` is exactly case-insensitive
equality. -/
theorem sqlILike_iff_ci_eq (s pattern : Str)
    (hpc : '%' ∉ pattern) (hus : '_' ∉ pattern) :
    sqlILike s pattern = true ↔ s.map Char.toLower = pattern.map Char.toLower := by
  unfold sqlILike
  have hpc' : '%' ∉ pattern.map Char.toLower := by
    intro hmem
    obtain ⟨c, hc, hlc⟩ := List.mem_map.mp hmem
    exact hpc ((toLower_eq_of_nonletter (Or.inl (by decide)) hlc) ▸ hc)
  have hus' : '_' ∉ pattern.map Char.toLower := by
    intro hmem
    obtain ⟨c, hc, hlc⟩ := List.mem_map.mp hmem
    exact hus ((toLower_eq_of_nonletter (Or.inl (by decide)) hlc) ▸ hc)
  exact likeMatch_no_wildcards _ hpc' hus' _

/-!
## Embeddings and exact inner-product search (`faiss.IndexFlatIP`, `k = 1`)
-/

/-- Embedding vectors (fixed dimensionality is irrelevant to the claims). -/
abbrev Vec := List ℚ

/-- The injected sentence-embedding function (`model.encode` with
`normalize_embeddings=True`); deterministic by construction. -/
abbrev Embed := Str → Vec

/-- Inner product of two vectors (componentwise product, summed; extra
components of the longer vector are ignored, as they never arise: all
embeddings share one dimensionality). -/
def dot (u v : Vec) : ℚ := (List.zipWith (fun a b => a * b) u v).sum

theorem dot_nil_left (v : Vec) : dot [] v = 0 := rfl

theorem dot_cons_cons (a b : ℚ) (u v : Vec) :
    dot (a :: u) (b :: v) = a * b + dot u v := by
  simp [dot, List.zipWith]

theorem dot_self_nonneg (u : Vec) : 0 ≤ dot u u := by
  induction u with
  | nil => simp [dot]
  | cons a u ih =>
    rw [dot_cons_cons]
    nlinarith [mul_self_nonneg a, ih]

/-- Cauchy-Schwarz for list inner products. -/
theorem dot_sq_le (u : Vec) : ∀ v : Vec, (dot u v) ^ 2 ≤ dot u u * dot v v := by
  induction u with
  | nil =>
    intro v
    simp [dot]
  | cons a u ih =>
    intro v
    match v with
    | [] =>
      simp [dot]
    | b :: v =>
      rw [dot_cons_cons, dot_cons_cons, dot_cons_cons]
      have hd := ih v
      have hU := dot_self_nonneg u
      have hV := dot_self_nonneg v
      set d := dot u v
      set U := dot u u
      set V := dot v v
      have h1 : (2 * (a * b) * d) ^ 2 ≤ (a ^ 2 * V + b ^ 2 * U) ^ 2 := by
        nlinarith [sq_nonneg (a ^ 2 * V - b ^ 2 * U),
          mul_nonneg (mul_nonneg (sq_nonneg a) (sq_nonneg b)) (sub_nonneg.mpr hd)]
      have hx : 0 ≤ a ^ 2 * V + b ^ 2 * U := by positivity
      have h2 : 2 * (a * b) * d ≤ a ^ 2 * V + b ^ 2 * U := by
        nlinarith [h1, hx]
      nlinarith [h2, hd]

/-- Inner products of unit vectors lie in `[-1, 1]`. -/
theorem dot_unit_bounds (u v : Vec) (hu : dot u u = 1) (hv : dot v v = 1) :
    -1 ≤ dot u v ∧ dot u v ≤ 1 := by
  have h := dot_sq_le u v
  rw [hu, hv] at h
  constructor <;> nlinarith [h]

/-- `index.search(q, 1)` on a `faiss.IndexFlatIP` over `embs`: the maximal
inner product over the stored rows, together with the first row index
attaining it.  On an empty index (which `_build_team_index` never produces)
FAISS returns similarity below any real cosine; `-2` stands in for that. -/
def searchTop (embs : List Vec) (q : Vec) : ℚ × Nat :=
  match embs.map (fun e => dot e q) with
  | [] => (-2, 0)
  | s :: ss =>
    let m := ss.foldl max s
    (m, (s :: ss).indexOf m)

theorem foldl_max_mem (s : ℚ) (l : List ℚ) : l.foldl max s ∈ s :: l := by
  induction l generalizing s with
  | nil => simp
  | cons b l ih =>
    rw [List.foldl_cons]
    rcases List.mem_cons.mp (ih (max s b)) with h | h
    · rw [h]
      rcases max_choice s b with hm | hm
      · rw [hm]
        exact List.mem_cons_self _ _
      · rw [hm]
        exact List.mem_cons_of_mem _ (List.mem_cons_self _ _)
    · exact List.mem_cons_of_mem _ (List.mem_cons_of_mem _ h)

theorem init_le_foldl_max (s : ℚ) (l : List ℚ) : s ≤ l.foldl max s := by
  induction l generalizing s with
  | nil => simp
  | cons b l ih => exact le_trans (le_max_left s b) (ih (max s b))

theorem le_foldl_max (s : ℚ) (l : List ℚ) : ∀ x ∈ l, x ≤ l.foldl max s := by
  induction l generalizing s with
  | nil => simp
  | cons b l ih =>
    intro x hx
    rw [List.foldl_cons]
    rcases List.mem_cons.mp hx with h | h
    · subst h
      exact le_trans (le_max_right s x) (init_le_foldl_max (max s x) l)
    · exact ih (max s b) x h

/-- The similarity returned by `searchTop` on a nonempty index is one of the
stored inner products. -/
theorem searchTop_sim_mem (embs : List Vec) (q : Vec) (h : embs ≠ []) :
    (searchTop embs q).1 ∈ embs.map (fun e => dot e q) := by
  unfold searchTop
  split
  · rename_i heq
    exact absurd (List.map_eq_nil_iff.mp heq) h
  · rename_i s ss heq
    rw [heq]
    exact foldl_max_mem s ss

/-- The row index returned by `searchTop` on a nonempty index is in range. -/
theorem searchTop_idx_lt (embs : List Vec) (q : Vec) (h : embs ≠ []) :
    (searchTop embs q).2 < embs.length := by
  unfold searchTop
  split
  · rename_i heq
    exact absurd (List.map_eq_nil_iff.mp heq) h
  · rename_i s ss heq
    have hmem : (ss.foldl max s) ∈ s :: ss := foldl_max_mem s ss
    have hlen : (s :: ss).length = embs.length := by
      rw [← heq, List.length_map]
    calc (s :: ss).indexOf (ss.foldl max s) < (s :: ss).length :=
        List.indexOf_lt_length.mpr hmem
      _ = embs.length := hlen

/-!
## Data model (`properties` / `listing` tables) and query layer
-/

/-- A row of the `properties` table. -/
structure Property where
  property_id : Str
  team_id : Str
  street_part : Str
  unit_part : Str
  city : Str
  state : Str
  zipcode : Str
  full_address : Str
  token_set : Str
  type_norm : Str
deriving DecidableEq, Repr

/-- A row of the `listing` table.  `property_id` is the optional trusted
pre-assignment; `full_address` is optional since listings may lack one. -/
structure Listing where
  listing_id : Str
  property_id : Option Str
  team_id : Str
  street_part : Str
  unit_part : Str
  city : Str
  state : Str
  zipcode : Str
  full_address : Option Str
  token_set : Str
deriving DecidableEq, Repr

/-- The data store: the two tables, in row order. -/
structure DB where
  properties : List Property
  listings : List Listing
deriving DecidableEq, Repr

/-- Spec §3 data-model invariants: identifiers are unique keys and non-empty
(`property_id` is a primary key and globally unique; `listing_id` is a
primary key; a pre-assignment that exists names a real identifier). -/
structure DBWF (db : DB) : Prop where
  listing_ids_unique : db.listings.Pairwise (fun a b => a.listing_id ≠ b.listing_id)
  property_ids_unique : db.properties.Pairwise (fun a b => a.property_id ≠ b.property_id)
  listing_pre_nonempty : ∀ l ∈ db.listings, l.property_id ≠ some []
  property_id_nonempty : ∀ p ∈ db.properties, p.property_id ≠ []

/-- The stage-0 pre-match query: `select Listing.property_id where
listing_id == lid and property_id is not None`, in row order. -/
def pre_match_query (listing_id : Str) (db : DB) : List Str :=
  db.listings.filterMap (fun l => if l.listing_id = listing_id then l.property_id else none)

/-- The stage-1 exact query: `select Property.property_id where
team_id == tid and full_address ilike norm_addr`, in row order. -/
def exact_query (team_id norm_addr : Str) (db : DB) : List Str :=
  db.properties.filterMap (fun p =>
    if p.team_id = team_id ∧ sqlILike p.full_address norm_addr = true
    then some p.property_id else none)

/-- The stage-3 building query: like `exact_query` but on `street_part`,
with `limit(1)`. -/
def street_query (team_id base : Str) (db : DB) : List Str :=
  (db.properties.filterMap (fun p =>
    if p.team_id = team_id ∧ sqlILike p.street_part base = true
    then some p.property_id else none)).take 1

/-- The rows fetched by `_build_team_index`:
`select property_id, full_address where team_id == tid`. -/
def team_rows (team_id : Str) (db : DB) : List (Str × Str) :=
  db.properties.filterMap (fun p =>
    if p.team_id = team_id then some (p.property_id, p.full_address) else none)

/-- `sqlalchemy` errors and the pipeline's own `ValueError`, as the model's
error type. -/
inductive MErr where
  | noPropertiesForTeam
  | multipleResultsFound
  | cacheKeyError
deriving DecidableEq, Repr

/-- `Result.scalar_one_or_none()`: `None` on zero rows, the value on one row,
`MultipleResultsFound` on two or more. -/
def scalar_one_or_none {α : Type} : List α → Except MErr (Option α)
  | [] => .ok none
  | [a] => .ok (some a)
  | _ => .error .multipleResultsFound

/-!
## Team index cache (`_team_cache`, `_build_team_index`, `_team_resources`)
-/

/-- One `_team_cache` entry: the embedding matrix and the parallel property
identifier list (the FAISS index is the `searchTop` function over
`embeddings`). -/
structure TeamEntry where
  embeddings : List Vec
  prop_ids : List Str
deriving DecidableEq, Repr

/-- The `_team_cache` dict, threaded explicitly.  Insertion conses at the
head; lookup takes the most recent binding, matching dict overwrite. -/
abbrev Cache := List (Str × TeamEntry)

def lookupCache (team_id : Str) : Cache → Option TeamEntry
  | [] => none
  | (k, e) :: rest => if k = team_id then some e else lookupCache team_id rest

/-- The entry `_build_team_index` constructs for a team: embeddings of the
full addresses of the team's properties (one batched `model.encode` call)
and the parallel list of their identifiers. -/
def buildEntry (team_id : Str) (db : DB) (embed : Embed) : TeamEntry :=
  { embeddings := ((team_rows team_id db).map Prod.snd).map embed,
    prop_ids := (team_rows team_id db).map Prod.fst }

/-- `_build_team_index`: raises `ValueError` (here `noPropertiesForTeam`)
when the team has no rows, otherwise stores the freshly built entry in the
cache.  The cache is only written after the emptiness check, so a failed
build leaves the cache untouched. -/
def build_team_index (team_id : Str) (db : DB) (embed : Embed) (cache : Cache) :
    Except MErr Cache :=
  if team_rows team_id db = [] then .error .noPropertiesForTeam
  else .ok ((team_id, buildEntry team_id db embed) :: cache)

/-- `_team_resources`: return the cached entry, building it first on a miss.
The final lookup mirrors `_team_cache[team_id]`, whose `KeyError` branch is
unreachable. -/
def team_resources (team_id : Str) (db : DB) (embed : Embed) (cache : Cache) :
    Except MErr (TeamEntry × Cache) :=
  match lookupCache team_id cache with
  | some e => .ok (e, cache)
  | none =>
    match build_team_index team_id db embed cache with
    | .error e => .error e
    | .ok cache' =>
      match lookupCache team_id cache' with
      | some e => .ok (e, cache')
      | none => .error .cacheKeyError

/-- Cache well-formedness: every entry was built by `_build_team_index`
against the current data store and embedding function (the only writer in
the source), from a nonempty row set. -/
def CacheWF (db : DB) (embed : Embed) (cache : Cache) : Prop :=
  ∀ t e, lookupCache t cache = some e → team_rows t db ≠ [] ∧ e = buildEntry t db embed

/-!
## The matching pipeline (`match_listing`) and the service boundary
-/

def MIN_CONFIDENCE : ℚ := 0.80

/-- Stage-2 confidence: `conf = sim * 0.5 + 0.5`. -/
def fuzzyConf (sim : ℚ) : ℚ := sim * 0.5 + 0.5

/-- Stage-3b confidence: `conf2 = (sim2 * 0.5 + 0.5) * 0.9`. -/
def buildingFuzzyConf (sim2 : ℚ) : ℚ := (sim2 * 0.5 + 0.5) * 0.9

/-- `norm_addr.split("-")[0].strip()`. -/
def buildingBase (norm_addr : Str) : Str :=
  pyStrip (norm_addr.takeWhile (fun c => c != '-'))

/-- Which point of `match_listing` produced a decision (spec §4.4 stages;
`missingAddress` is the stage-0 missing-address abstention, `preMatch` and
`exactMatch` the stage-0/1 matches, `noTeamAbstain` the stage-2
`NoPropertiesForTeam` abstention, `finalAbstain` stage 4). -/
inductive Stage where
  | missingAddress
  | preMatch
  | exactMatch
  | noTeamAbstain
  | fuzzyApartment
  | buildingExact
  | buildingFuzzy
  | finalAbstain
deriving DecidableEq, Repr

/-- `match_listing`, instrumented with the stage that produced the decision.
Follows `src/app/matcher.py` lines 114-175 clause by clause; returns the
decision together with the cache state after the call.  The source's local
variables (`norm_addr`, `sim`, `conf`, `base`, `sim2`, `conf2`) are inlined:
each occurrence denotes the same pure expression. -/
def match_listing_staged (listing_id team_id : Str) (listing_address : Option Str)
    (db : DB) (embed : Embed) (cache : Cache) :
    Except MErr ((Stage × Option Str × ℚ) × Cache) :=
  if truthyOpt listing_address then
    match scalar_one_or_none (pre_match_query listing_id db) with
    | .error e => .error e
    | .ok existing =>
      if truthyOpt existing then .ok ((.preMatch, existing, 1), cache)
      else
        match scalar_one_or_none (exact_query team_id (normalize_addr listing_address) db) with
        | .error e => .error e
        | .ok exact =>
          if truthyOpt exact then .ok ((.exactMatch, exact, 1), cache)
          else
            match team_resources team_id db embed cache with
            | .error .noPropertiesForTeam => .ok ((.noTeamAbstain, none, 0), cache)
            | .error e => .error e
            | .ok (res, cache') =>
              if MIN_CONFIDENCE ≤
                  fuzzyConf (searchTop res.embeddings (embed (normalize_addr listing_address))).1 then
                .ok ((.fuzzyApartment,
                  some (res.prop_ids.getD
                    (searchTop res.embeddings (embed (normalize_addr listing_address))).2 []),
                  fuzzyConf (searchTop res.embeddings (embed (normalize_addr listing_address))).1),
                  cache')
              else
                match scalar_one_or_none
                    (street_query team_id (buildingBase (normalize_addr listing_address)) db) with
                | .error e => .error e
                | .ok bldg_exact =>
                  if truthyOpt bldg_exact then
                    .ok ((.buildingExact, bldg_exact, 0.7), cache')
                  else
                    if MIN_CONFIDENCE ≤ buildingFuzzyConf
                        (searchTop res.embeddings
                          (embed (buildingBase (normalize_addr listing_address)))).1 then
                      .ok ((.buildingFuzzy,
                        some (res.prop_ids.getD
                          (searchTop res.embeddings
                            (embed (buildingBase (normalize_addr listing_address)))).2 []),
                        buildingFuzzyConf
                          (searchTop res.embeddings
                            (embed (buildingBase (normalize_addr listing_address)))).1),
                        cache')
                    else .ok ((.finalAbstain, none, 0), cache')
  else .ok ((.missingAddress, none, 0), cache)

/-- `match_listing` as in the source: the decision without the stage tag. -/
def match_listing (listing_id team_id : Str) (listing_address : Option Str)
    (db : DB) (embed : Embed) (cache : Cache) :
    Except MErr ((Option Str × ℚ) × Cache) :=
  (match_listing_staged listing_id team_id listing_address db embed cache).map
    (fun r => ((r.1.2.1, r.1.2.2), r.2))

/-- Python `round(q, 4)` (ties rounded half-up in the model; the
banker's-rounding tie behaviour of Python floats is outside the model and
no claim depends on it). -/
def round4 (q : ℚ) : ℚ := (⌊q * 10000 + 1 / 2⌋ : ℚ) / 10000

/-- The `/match` endpoint's observable outcomes. -/
inductive ServiceResp where
  | ok (property_id : Option Str) (confidence : ℚ)
  | notFound
  | serverError
deriving DecidableEq, Repr

/-- The `/match` endpoint: runs the pipeline, maps `ValueError`
(`noPropertiesForTeam`) to 404 and anything else escaping to a generic 500,
and rounds the confidence to 4 decimals. -/
def matchService (listing_id team_id full_address : Str)
    (db : DB) (embed : Embed) (cache : Cache) : ServiceResp :=
  match match_listing listing_id team_id (some full_address) db embed cache with
  | .ok ((pid, conf), _) => .ok pid (round4 conf)
  | .error .noPropertiesForTeam => .notFound
  | .error _ => .serverError

/-!
## Pipeline case analysis
-/

theorem truthyOpt_eq_true_iff (o : Option Str) :
    truthyOpt o = true ↔ ∃ s, o = some s ∧ s ≠ [] := by
  cases o with
  | none => simp [truthyOpt]
  | some s => simp [truthyOpt, truthyStr, List.isEmpty_iff]

/-- Every successful decision of the pipeline is one of: an abstention
(`None`, `0.0`), a stage-0/1 match at confidence `1.0`, a stage-3 building
match at `0.7`, or a fuzzy match at confidence `≥ MIN_CONFIDENCE`. -/
theorem staged_shape (listing_id team_id : Str) (listing_address : Option Str)
    (db : DB) (embed : Embed) (cache : Cache)
    (st : Stage) (pid : Option Str) (c : ℚ) (cache' : Cache)
    (h : match_listing_staged listing_id team_id listing_address db embed cache
        = .ok ((st, pid, c), cache')) :
    (pid = none ∧ c = 0 ∧ (st = .missingAddress ∨ st = .noTeamAbstain ∨ st = .finalAbstain))
    ∨ (pid ≠ none ∧
        (((st = .preMatch ∨ st = .exactMatch) ∧ c = 1)
         ∨ (st = .buildingExact ∧ c = 0.7)
         ∨ ((st = .fuzzyApartment ∨ st = .buildingFuzzy) ∧ MIN_CONFIDENCE ≤ c))) := by
  unfold match_listing_staged at h
  repeat' split at h
  all_goals simp only [Except.ok.injEq, Prod.mk.injEq, reduceCtorEq] at h
  all_goals obtain ⟨⟨hst, hpid, hc⟩, hcache⟩ := h
  all_goals subst hst
  all_goals subst hpid
  all_goals subst hc
  · exact Or.inr ⟨by rename_i v heq htr; obtain ⟨s, hs, _⟩ := (truthyOpt_eq_true_iff _).mp htr; simp [hs],
      Or.inl ⟨Or.inl rfl, rfl⟩⟩
  · exact Or.inr ⟨by rename_i v heq htr; obtain ⟨s, hs, _⟩ := (truthyOpt_eq_true_iff _).mp htr; simp [hs],
      Or.inl ⟨Or.inr rfl, rfl⟩⟩
  · exact Or.inl ⟨rfl, rfl, Or.inr (Or.inl rfl)⟩
  · exact Or.inr ⟨by simp, Or.inr (Or.inr ⟨Or.inl rfl, by rename_i hconf; exact hconf⟩)⟩
  · exact Or.inr ⟨by rename_i v heq htr; obtain ⟨s, hs, _⟩ := (truthyOpt_eq_true_iff _).mp htr; simp [hs],
      Or.inr (Or.inl ⟨rfl, rfl⟩)⟩
  · exact Or.inr ⟨by simp, Or.inr (Or.inr ⟨Or.inr rfl, by rename_i hconf; exact hconf⟩)⟩
  · exact Or.inl ⟨rfl, rfl, Or.inr (Or.inr rfl)⟩
  · exact Or.inl ⟨rfl, rfl, Or.inl rfl⟩

/-- C1: for every result the pipeline returns, the confidence is `0.0` iff
the property identifier is `None`; every non-null identifier carries
confidence `≥ 0.0`; and the stage-0 pre-match and stage-1 exact decisions
carry a non-null identifier at confidence exactly `1.0`. -/
theorem match_listing_confidence_invariant (listing_id team_id : Str)
    (listing_address : Option Str) (db : DB) (embed : Embed) (cache : Cache)
    (st : Stage) (pid : Option Str) (c : ℚ) (cache' : Cache)
    (h : match_listing_staged listing_id team_id listing_address db embed cache
        = .ok ((st, pid, c), cache')) :
    (c = 0 ↔ pid = none)
    ∧ (pid ≠ none → 0 ≤ c)
    ∧ ((st = .preMatch ∨ st = .exactMatch) → c = 1 ∧ pid ≠ none) := by
  rcases staged_shape listing_id team_id listing_address db embed cache st pid c cache' h with
    ⟨hpid, hc, hst⟩ | ⟨hpid, hcase⟩
  · subst hpid
    subst hc
    refine ⟨by simp, by simp, ?_⟩
    intro hs
    rcases hst with h1 | h1 | h1 <;> subst h1 <;> rcases hs with h2 | h2 <;> simp at h2
  · rcases hcase with ⟨hst, hc⟩ | ⟨hst, hc⟩ | ⟨hst, hc⟩
    · subst hc
      exact ⟨by constructor <;> intro hcon <;> [norm_num at hcon; exact absurd hcon hpid],
        fun _ => by norm_num, fun _ => ⟨rfl, hpid⟩⟩
    · subst hst
      subst hc
      refine ⟨by constructor <;> intro hcon <;> [norm_num at hcon; exact absurd hcon hpid],
        fun _ => by norm_num, ?_⟩
      intro hs
      rcases hs with h2 | h2 <;> simp at h2
    · have hcpos : (0 : ℚ) < c := lt_of_lt_of_le (by norm_num [MIN_CONFIDENCE]) hc
      refine ⟨by constructor <;> intro hcon <;> [exact absurd hcon.symm (ne_of_lt hcpos); exact absurd hcon hpid],
        fun _ => le_of_lt hcpos, ?_⟩
      intro hs
      rcases hst with h1 | h1 <;> subst h1 <;> rcases hs with h2 | h2 <;> simp at h2

/-- A small concrete data store used by the witnesses: one team `T1` with
one property `P1` at `"123 main st"`, and one unassigned listing `L1`. -/
def exProperty : Property :=
  ⟨strL "P1", strL "T1", strL "123 main st", [], [], [], [], strL "123 main st", [], []⟩

def exListing : Listing :=
  ⟨strL "L1", none, strL "T1", [], [], [], [], [], some (strL "123 Main St"), []⟩

def exDB : DB := ⟨[exProperty], [exListing]⟩

/-- A trivially unit-norm deterministic embedding (dimension 1). -/
def exEmbed : Embed := fun _ => [1]

theorem match_listing_confidence_invariant_witness :
    ((1 : ℚ) = 0 ↔ (some (strL "P1") : Option Str) = none)
    ∧ ((some (strL "P1") : Option Str) ≠ none → (0 : ℚ) ≤ 1)
    ∧ ((Stage.exactMatch = Stage.preMatch ∨ Stage.exactMatch = Stage.exactMatch)
        → (1 : ℚ) = 1 ∧ (some (strL "P1") : Option Str) ≠ none) :=
  match_listing_confidence_invariant (strL "L1") (strL "T1") (some (strL "123 Main  St"))
    exDB exEmbed [] Stage.exactMatch (some (strL "P1")) 1 [] (by rfl)

/-!
## Query-level helper lemmas
-/

theorem filterMap_eq_singleton {α β : Type} (f : α → Option β) (xs : List α) (a : α) (b : β)
    (hpw : xs.Pairwise (fun x y => ¬((f x).isSome = true ∧ (f y).isSome = true)))
    (ha : a ∈ xs) (hfa : f a = some b) :
    xs.filterMap f = [b] := by
  induction xs with
  | nil => simp at ha
  | cons x xs ih =>
    rcases List.mem_cons.mp ha with hax | hax
    · subst hax
      rw [List.filterMap_cons, hfa]
      have hnil : xs.filterMap f = [] := by
        rw [List.filterMap_eq_nil_iff]
        intro y hy
        by_contra hcon
        have hys : (f y).isSome = true := by
          cases hfy : f y with
          | none => exact absurd hfy hcon
          | some c => rfl
        exact (List.pairwise_cons.mp hpw).1 y hy ⟨by rw [hfa]; rfl, hys⟩
      rw [hnil]
    · cases hfx : f x with
      | none =>
        rw [List.filterMap_cons, hfx]
        exact ih (List.pairwise_cons.mp hpw).2 hax
      | some c =>
        exact absurd ⟨by rw [hfx]; rfl, by rw [hfa]; rfl⟩
          ((List.pairwise_cons.mp hpw).1 a hax)

theorem scalar_one_or_none_singleton {α : Type} (a : α) :
    scalar_one_or_none [a] = .ok (some a) := rfl

theorem scalar_one_or_none_nil {α : Type} :
    scalar_one_or_none ([] : List α) = .ok none := rfl

theorem scalar_one_or_none_ok_some {α : Type} (l : List α) (a : α)
    (h : scalar_one_or_none l = .ok (some a)) : l = [a] := by
  match l with
  | [] => simp [scalar_one_or_none] at h
  | [x] =>
    simp only [scalar_one_or_none, Except.ok.injEq, Option.some.injEq] at h
    rw [h]
  | x :: y :: rest => simp [scalar_one_or_none] at h

theorem scalar_one_or_none_ok_none {α : Type} (l : List α)
    (h : scalar_one_or_none l = .ok none) : l = [] := by
  match l with
  | [] => rfl
  | [x] => simp [scalar_one_or_none] at h
  | x :: y :: rest => simp [scalar_one_or_none] at h

/-!
## C2 — stage-0 trusted pre-assignment
-/

/-- C2 counterexample data: a listing that carries a non-null pre-assigned
`property_id` but has no address. -/
def cexListingC2 : Listing :=
  ⟨strL "L9", some (strL "P1"), strL "T1", [], [], [], [], [], none, []⟩

def cexDBC2 : DB := ⟨[], [cexListingC2]⟩

/-- C2 counterexample: this listing carries the non-null pre-assigned
identifier `"P1"`, yet the pipeline abstains (`None`, `0.0`) because the
missing-address check precedes the pre-match stage — it does not return
`("P1", 1.0)` as the claim states. -/
theorem match_listing_prematch_counterexample :
    cexListingC2.property_id = some (strL "P1")
    ∧ cexListingC2 ∈ cexDBC2.listings
    ∧ match_listing (strL "L9") (strL "T1") none cexDBC2 exEmbed []
        = .ok ((none, 0), [])
    ∧ (some (strL "P1") : Option Str) ≠ none := by
  refine ⟨rfl, by simp [cexDBC2], by rfl, by simp⟩

/-- C2 (amended): for every listing with a truthy (present and non-empty)
raw address that carries a pre-assigned non-null `property_id`, the pipeline
returns that identifier with confidence exactly `1.0` — whatever properties
exist, so in particular even when an exact or fuzzy match would disagree.
(Data-model invariants assumed: unique `listing_id` keys, pre-assignments
are non-empty identifiers.) -/
theorem match_listing_prematch_trusted (listing_id team_id s : Str)
    (db : DB) (embed : Embed) (cache : Cache) (l : Listing) (p : Str)
    (hwf : DBWF db) (hl : l ∈ db.listings) (hlid : l.listing_id = listing_id)
    (hpre : l.property_id = some p) (hs : s ≠ []) :
    match_listing listing_id team_id (some s) db embed cache = .ok ((some p, 1), cache) := by
  have hp_ne : p ≠ [] := by
    intro hcon
    exact hwf.listing_pre_nonempty l hl (by rw [hpre, hcon])
  have hq : pre_match_query listing_id db = [p] := by
    unfold pre_match_query
    refine filterMap_eq_singleton _ _ l p ?_ hl ?_
    · refine List.Pairwise.imp ?_ hwf.listing_ids_unique
      intro a b hne
      rintro ⟨hsa, hsb⟩
      by_cases haid : a.listing_id = listing_id
      · by_cases hbid : b.listing_id = listing_id
        · exact hne (haid.trans hbid.symm)
        · rw [if_neg hbid] at hsb
          simp at hsb
      · rw [if_neg haid] at hsa
        simp at hsa
    · rw [if_pos hlid]
      exact hpre
  have htr : truthyOpt (some s) = true := by
    simp [truthyOpt, truthyStr, List.isEmpty_iff, hs]
  have htrp : truthyOpt (some p) = true := by
    simp [truthyOpt, truthyStr, List.isEmpty_iff, hp_ne]
  unfold match_listing match_listing_staged
  rw [if_pos htr, hq, scalar_one_or_none_singleton]
  simp [htrp, Except.map]

theorem match_listing_prematch_trusted_witness :
    match_listing (strL "L9") (strL "T1") (some (strL "anything")) cexDBC2 exEmbed []
      = .ok ((some (strL "P1"), 1), []) :=
  match_listing_prematch_trusted (strL "L9") (strL "T1") (strL "anything")
    cexDBC2 exEmbed [] cexListingC2 (strL "P1")
    ⟨by decide, by decide, by decide, by decide⟩
    (by simp [cexDBC2]) rfl rfl (by decide)

/-!
## C3 — stage-1 exact match precedes fuzzy search
-/

/-- C3 counterexample data: two distinct properties of the same team with
the same full address. -/
def cexPropA : Property :=
  ⟨strL "PA", strL "T1", strL "123 main st", [], [], [], [], strL "123 main st", [], []⟩

def cexPropB : Property :=
  ⟨strL "PB", strL "T1", strL "123 main st", [], [], [], [], strL "123 main st", [], []⟩

def cexDBC3 : DB := ⟨[cexPropA, cexPropB], []⟩

/-- C3 counterexample: `cexPropA` is a same-team property whose full address
case-insensitively equals the normalized input, yet the pipeline does not
terminate at stage 1 with it and confidence `1.0`: `scalar_one_or_none`
raises `MultipleResultsFound` because a second property also matches. -/
theorem match_listing_exact_counterexample :
    cexPropA ∈ cexDBC3.properties
    ∧ cexPropA.team_id = strL "T1"
    ∧ cexPropA.full_address.map Char.toLower
        = (normalize_addr (some (strL "123 Main St"))).map Char.toLower
    ∧ match_listing_staged (strL "LX") (strL "T1") (some (strL "123 Main St"))
        cexDBC3 exEmbed [] = .error .multipleResultsFound := by
  refine ⟨by simp [cexDBC3], rfl, by rfl, by rfl⟩

/-- C3 (amended): for every listing with a truthy address, no pre-assigned
`property_id`, a wildcard-free normalized address, and *exactly one*
same-team property whose full address case-insensitively equals the
normalized input, the pipeline terminates at stage 1 with that property and
confidence exactly `1.0`, never reaching fuzzy search.  (The claim as stated
fails when two same-team properties share that address: the stage-1 lookup
then raises `MultipleResultsFound`; and a `%` or `_` in the address makes
the `ilike` pattern match more rows than address equality.) -/
theorem match_listing_exact_stage (listing_id team_id s : Str)
    (db : DB) (embed : Embed) (cache : Cache) (p : Property)
    (hwf : DBWF db)
    (hs : s ≠ [])
    (hnopre : ∀ l ∈ db.listings, l.listing_id = listing_id → l.property_id = none)
    (hp : p ∈ db.properties) (hteam : p.team_id = team_id)
    (hci : p.full_address.map Char.toLower = (normalize_addr (some s)).map Char.toLower)
    (hunique : ∀ q ∈ db.properties, q.team_id = team_id →
        q.full_address.map Char.toLower = (normalize_addr (some s)).map Char.toLower → q = p)
    (hpc : '%' ∉ normalize_addr (some s)) (hus : '_' ∉ normalize_addr (some s)) :
    match_listing_staged listing_id team_id (some s) db embed cache
      = .ok ((.exactMatch, some p.property_id, 1), cache) := by
  have htr : truthyOpt (some s) = true := by
    simp [truthyOpt, truthyStr, List.isEmpty_iff, hs]
  have hq0 : pre_match_query listing_id db = [] := by
    unfold pre_match_query
    rw [List.filterMap_eq_nil_iff]
    intro l hl
    by_cases hid : l.listing_id = listing_id
    · rw [if_pos hid]
      exact hnopre l hl hid
    · rw [if_neg hid]
  have hilike : ∀ q : Property,
      (sqlILike q.full_address (normalize_addr (some s)) = true
        ↔ q.full_address.map Char.toLower = (normalize_addr (some s)).map Char.toLower) :=
    fun q => sqlILike_iff_ci_eq q.full_address (normalize_addr (some s)) hpc hus
  have hq1 : exact_query team_id (normalize_addr (some s)) db = [p.property_id] := by
    unfold exact_query
    refine filterMap_eq_singleton _ _ p p.property_id ?_ hp ?_
    · refine List.Pairwise.imp_of_mem ?_ hwf.property_ids_unique
      intro a b ha hb hne
      rintro ⟨hsa, hsb⟩
      by_cases hca : a.team_id = team_id ∧ sqlILike a.full_address (normalize_addr (some s)) = true
      · by_cases hcb : b.team_id = team_id ∧ sqlILike b.full_address (normalize_addr (some s)) = true
        · have hap : a = p := hunique a ha hca.1 ((hilike a).mp hca.2)
          have hbp : b = p := hunique b hb hcb.1 ((hilike b).mp hcb.2)
          exact hne (by rw [hap, hbp])
        · rw [if_neg hcb] at hsb
          simp at hsb
      · rw [if_neg hca] at hsa
        simp at hsa
    · rw [if_pos ⟨hteam, (hilike p).mpr hci⟩]
  have hpid_ne : p.property_id ≠ [] := hwf.property_id_nonempty p hp
  unfold match_listing_staged
  rw [if_pos htr, hq0, hq1, scalar_one_or_none_nil]
  simp [scalar_one_or_none, truthyOpt, truthyStr, List.isEmpty_iff, hpid_ne]

theorem match_listing_exact_stage_witness :
    match_listing_staged (strL "L1") (strL "T1") (some (strL "123 Main St"))
      exDB exEmbed [] = .ok ((.exactMatch, some (strL "P1"), 1), []) :=
  match_listing_exact_stage (strL "L1") (strL "T1") (strL "123 Main St")
    exDB exEmbed [] exProperty
    ⟨by decide, by decide, by decide, by decide⟩
    (by decide)
    (by intro l hl _; simp [exDB, exListing] at hl; rw [hl])
    (by simp [exDB]) rfl (by rfl)
    (by
      intro q hq _ _
      simp [exDB] at hq
      rw [hq])
    (by decide) (by decide)

/-!
## Index build and cache lemmas
-/

theorem lookupCache_insert_self (t : Str) (e : TeamEntry) (c : Cache) :
    lookupCache t ((t, e) :: c) = some e := by
  simp [lookupCache]

theorem build_team_index_empty (t : Str) (db : DB) (embed : Embed) (cache : Cache)
    (h : team_rows t db = []) :
    build_team_index t db embed cache = .error .noPropertiesForTeam := by
  simp [build_team_index, h]

theorem build_team_index_nonempty (t : Str) (db : DB) (embed : Embed) (cache : Cache)
    (h : team_rows t db ≠ []) :
    build_team_index t db embed cache = .ok ((t, buildEntry t db embed) :: cache) := by
  simp [build_team_index, h]

theorem cacheWF_insert (db : DB) (embed : Embed) (cache : Cache) (t : Str)
    (hwf : CacheWF db embed cache) (hrows : team_rows t db ≠ []) :
    CacheWF db embed ((t, buildEntry t db embed) :: cache) := by
  intro t' e' hl
  unfold lookupCache at hl
  by_cases hteq : t = t'
  · rw [if_pos hteq] at hl
    injection hl with hl
    subst hteq
    exact ⟨hrows, hl.symm⟩
  · rw [if_neg hteq] at hl
    exact hwf t' e' hl

/-- On success, `_team_resources` hands back exactly the entry
`_build_team_index` constructs for the current store, the team has rows, and
cache well-formedness is preserved. -/
theorem team_resources_ok (t : Str) (db : DB) (embed : Embed) (cache : Cache)
    (e : TeamEntry) (c' : Cache)
    (hwf : CacheWF db embed cache)
    (h : team_resources t db embed cache = .ok (e, c')) :
    e = buildEntry t db embed ∧ team_rows t db ≠ [] ∧ CacheWF db embed c' := by
  unfold team_resources at h
  cases hl : lookupCache t cache with
  | some e0 =>
    rw [hl] at h
    injection h with h1
    obtain ⟨hrows, hbe⟩ := hwf t e0 hl
    injection h1 with he hc
    subst he
    subst hc
    exact ⟨hbe, hrows, hwf⟩
  | none =>
    rw [hl] at h
    by_cases hrows : team_rows t db = []
    · rw [build_team_index_empty t db embed cache hrows] at h
      simp at h
    · rw [build_team_index_nonempty t db embed cache hrows] at h
      simp only [lookupCache_insert_self, Except.ok.injEq, Prod.mk.injEq] at h
      obtain ⟨he, hc⟩ := h
      subst he
      subst hc
      exact ⟨rfl, hrows, cacheWF_insert db embed cache t hwf hrows⟩

/-- On failure, `_team_resources` fails with `NoPropertiesForTeam` (the
`KeyError` branch is unreachable), the team has no rows, and the cache had
no entry for it. -/
theorem team_resources_error (t : Str) (db : DB) (embed : Embed) (cache : Cache)
    (err : MErr) (h : team_resources t db embed cache = .error err) :
    err = .noPropertiesForTeam ∧ team_rows t db = [] ∧ lookupCache t cache = none := by
  unfold team_resources at h
  cases hl : lookupCache t cache with
  | some e0 =>
    rw [hl] at h
    simp at h
  | none =>
    rw [hl] at h
    by_cases hrows : team_rows t db = []
    · rw [build_team_index_empty t db embed cache hrows] at h
      injection h with h1
      exact ⟨h1.symm, hrows, rfl⟩
    · rw [build_team_index_nonempty t db embed cache hrows] at h
      simp [lookupCache_insert_self] at h

/-!
## C7 — empty-team build failure is not cached
-/

/-- C7: building the index for a team with zero properties fails with
`NoPropertiesForTeam` instead of producing an empty entry, and the failure
leaves no cache entry behind — a later `_team_resources` call for the same
team (same cache) re-attempts the build, and succeeds as soon as the team
has properties. -/
theorem build_team_index_empty_team (t : Str) (db : DB) (embed : Embed) (cache : Cache)
    (h : team_rows t db = []) :
    build_team_index t db embed cache = .error .noPropertiesForTeam
    ∧ (lookupCache t cache = none →
        team_resources t db embed cache = .error .noPropertiesForTeam)
    ∧ (∀ db' : DB, lookupCache t cache = none → team_rows t db' ≠ [] →
        team_resources t db' embed cache
          = .ok (buildEntry t db' embed, (t, buildEntry t db' embed) :: cache)) := by
  refine ⟨build_team_index_empty t db embed cache h, ?_, ?_⟩
  · intro hmiss
    unfold team_resources
    rw [hmiss, build_team_index_empty t db embed cache h]
  · intro db' hmiss hrows
    unfold team_resources
    rw [hmiss, build_team_index_nonempty t db' embed cache hrows]
    simp [lookupCache_insert_self]

def cexPropT2 : Property :=
  ⟨strL "PX", strL "T2", strL "9 elm st", [], [], [], [], strL "9 elm st", [], []⟩

def cexDBT2 : DB := ⟨[cexPropT2], []⟩

theorem build_team_index_empty_team_witness :
    build_team_index (strL "T2") exDB exEmbed [] = .error .noPropertiesForTeam
    ∧ (lookupCache (strL "T2") [] = none →
        team_resources (strL "T2") exDB exEmbed [] = .error .noPropertiesForTeam)
    ∧ (∀ db' : DB, lookupCache (strL "T2") [] = none → team_rows (strL "T2") db' ≠ [] →
        team_resources (strL "T2") db' exEmbed []
          = .ok (buildEntry (strL "T2") db' exEmbed,
              [(strL "T2", buildEntry (strL "T2") db' exEmbed)])) :=
  build_team_index_empty_team (strL "T2") exDB exEmbed [] (by rfl)

/-!
## C8 — `NoPropertiesForTeam` is absorbed, never propagated
-/

theorem scalar_one_or_none_error_eq {α : Type} (l : List α) (e : MErr)
    (h : scalar_one_or_none l = .error e) : e = .multipleResultsFound := by
  match l with
  | [] => simp [scalar_one_or_none] at h
  | [a] => simp [scalar_one_or_none] at h
  | a :: b :: r =>
    simp only [scalar_one_or_none, Except.error.injEq] at h
    exact h.symm

/-- The only error that can escape `match_listing` is the data-access
`MultipleResultsFound`; the `ValueError` of an empty team is caught
internally. -/
theorem match_listing_staged_error (listing_id team_id : Str) (listing_address : Option Str)
    (db : DB) (embed : Embed) (cache : Cache) (err : MErr)
    (h : match_listing_staged listing_id team_id listing_address db embed cache
        = .error err) :
    err = .multipleResultsFound := by
  unfold match_listing_staged at h
  repeat' split at h
  all_goals simp only [reduceCtorEq, Except.error.injEq] at h
  · rename_i e heq
    subst h
    exact scalar_one_or_none_error_eq _ e heq
  · rename_i e heq
    subst h
    exact scalar_one_or_none_error_eq _ e heq
  · rename_i e hside heq
    obtain ⟨hnp, _, _⟩ := team_resources_error _ _ _ _ e heq
    exact absurd hnp hside
  · rename_i e heq
    subst h
    exact scalar_one_or_none_error_eq _ e heq

/-- The `except ValueError` → 404 branch of the endpoint is dead code: no
input makes the service answer "not found". -/
theorem matchService_never_notFound (listing_id team_id s : Str)
    (db : DB) (embed : Embed) (cache : Cache) :
    matchService listing_id team_id s db embed cache ≠ .notFound := by
  unfold matchService
  cases hm : match_listing listing_id team_id (some s) db embed cache with
  | ok r => simp
  | error e =>
    unfold match_listing at hm
    cases hs : match_listing_staged listing_id team_id (some s) db embed cache with
    | ok r => rw [hs] at hm; simp [Except.map] at hm
    | error e' =>
      rw [hs] at hm
      simp only [Except.map] at hm
      injection hm with hm1
      subst hm1
      have := match_listing_staged_error _ _ _ _ _ _ _ hs
      subst this
      simp

/-- C8 counterexample data: a listing for team `T2`, for which no properties
exist at all. -/
def cexListingC8 : Listing :=
  ⟨strL "L3", none, strL "T2", [], [], [], [], [], some (strL "9 elm st"), []⟩

def cexDBC8 : DB := ⟨[], [cexListingC8]⟩

/-- C8 counterexample: for a listing whose team has zero properties the
service returns an ordinary 200-class abstention (`property_id = None`,
`confidence = 0.0`), not the "not found"-class response the claim says the
caller can observe. -/
theorem service_noProps_counterexample :
    team_rows (strL "T2") cexDBC8 = []
    ∧ matchService (strL "L3") (strL "T2") (strL "9 elm st") cexDBC8 exEmbed []
        = .ok none 0
    ∧ ServiceResp.ok none 0 ≠ ServiceResp.notFound := by
  refine ⟨rfl, ?_, by simp⟩
  have h : match_listing (strL "L3") (strL "T2") (some (strL "9 elm st")) cexDBC8 exEmbed []
      = .ok ((none, 0), []) := by rfl
  unfold matchService
  rw [h]
  norm_num [round4]

theorem team_rows_nil_iff (t : Str) (db : DB) :
    team_rows t db = [] ↔ ∀ p ∈ db.properties, p.team_id ≠ t := by
  unfold team_rows
  rw [List.filterMap_eq_nil_iff]
  constructor
  · intro h p hp hteam
    have := h p hp
    rw [if_pos hteam] at this
    simp at this
  · intro h p hp
    rw [if_neg (h p hp)]

/-- C8 (amended): the `NoPropertiesForTeam` failure raised while building the
index for a zero-property team is caught inside `match_listing` and turned
into an ordinary abstention; the service answers with a 200-class response
`(None, 0.0)`, and its "not found" mapping is unreachable on every input, so
the caller observes an ordinary abstention, not a distinguishable
"not found"-class condition. -/
theorem service_noProps_abstains (listing_id team_id s : Str)
    (db : DB) (embed : Embed) (cache : Cache)
    (hs : s ≠ [])
    (hnopre : ∀ l ∈ db.listings, l.listing_id = listing_id → l.property_id = none)
    (hrows : team_rows team_id db = [])
    (hmiss : lookupCache team_id cache = none) :
    matchService listing_id team_id s db embed cache = .ok none 0
    ∧ (∀ lid' tid' s' : Str, ∀ db' : DB, ∀ embed' : Embed, ∀ cache' : Cache,
        matchService lid' tid' s' db' embed' cache' ≠ .notFound) := by
  constructor
  · have htr : truthyOpt (some s) = true := by
      simp [truthyOpt, truthyStr, List.isEmpty_iff, hs]
    have hq0 : pre_match_query listing_id db = [] := by
      unfold pre_match_query
      rw [List.filterMap_eq_nil_iff]
      intro l hl
      by_cases hid : l.listing_id = listing_id
      · rw [if_pos hid]
        exact hnopre l hl hid
      · rw [if_neg hid]
    have hq1 : exact_query team_id (normalize_addr (some s)) db = [] := by
      unfold exact_query
      rw [List.filterMap_eq_nil_iff]
      intro p hp
      rw [if_neg]
      rintro ⟨hteam, _⟩
      exact (team_rows_nil_iff team_id db).mp hrows p hp hteam
    have hres : team_resources team_id db embed cache = .error .noPropertiesForTeam := by
      unfold team_resources
      rw [hmiss, build_team_index_empty team_id db embed cache hrows]
    unfold matchService match_listing match_listing_staged
    rw [if_pos htr, hq0, hq1, hres, scalar_one_or_none_nil]
    show ServiceResp.ok none (round4 0) = ServiceResp.ok none 0
    norm_num [round4]
  · intro lid' tid' s' db' embed' cache'
    exact matchService_never_notFound lid' tid' s' db' embed' cache'

theorem service_noProps_abstains_witness :
    matchService (strL "L3") (strL "T2") (strL "9 elm st") cexDBC8 exEmbed []
        = .ok none 0
    ∧ (∀ lid' tid' s' : Str, ∀ db' : DB, ∀ embed' : Embed, ∀ cache' : Cache,
        matchService lid' tid' s' db' embed' cache' ≠ .notFound) :=
  service_noProps_abstains (strL "L3") (strL "T2") (strL "9 elm st") cexDBC8 exEmbed []
    (by decide)
    (by intro l hl _; simp [cexDBC8, cexListingC8] at hl; rw [hl])
    rfl rfl

/-!
## C4 — per-team confinement
-/

theorem exact_query_mem (team_id norm : Str) (db : DB) (pid : Str)
    (h : pid ∈ exact_query team_id norm db) :
    ∃ q ∈ db.properties, q.property_id = pid ∧ q.team_id = team_id := by
  unfold exact_query at h
  obtain ⟨q, hq, hfq⟩ := List.mem_filterMap.mp h
  by_cases hc : q.team_id = team_id ∧ sqlILike q.full_address norm = true
  · rw [if_pos hc] at hfq
    injection hfq with h1
    exact ⟨q, hq, h1, hc.1⟩
  · rw [if_neg hc] at hfq
    simp at hfq

theorem street_query_mem (team_id base : Str) (db : DB) (pid : Str)
    (h : pid ∈ street_query team_id base db) :
    ∃ q ∈ db.properties, q.property_id = pid ∧ q.team_id = team_id := by
  unfold street_query at h
  obtain ⟨q, hq, hfq⟩ := List.mem_filterMap.mp (List.mem_of_mem_take h)
  by_cases hc : q.team_id = team_id ∧ sqlILike q.street_part base = true
  · rw [if_pos hc] at hfq
    injection hfq with h1
    exact ⟨q, hq, h1, hc.1⟩
  · rw [if_neg hc] at hfq
    simp at hfq

theorem team_rows_row_mem (t : Str) (db : DB) (pr : Str × Str) (h : pr ∈ team_rows t db) :
    ∃ q ∈ db.properties, q.property_id = pr.1 ∧ q.team_id = t := by
  unfold team_rows at h
  obtain ⟨q, hq, hfq⟩ := List.mem_filterMap.mp h
  by_cases hc : q.team_id = t
  · rw [if_pos hc] at hfq
    injection hfq with h1
    exact ⟨q, hq, by rw [← h1], hc⟩
  · rw [if_neg hc] at hfq
    simp at hfq

theorem buildEntry_embs_ne_nil (t : Str) (db : DB) (embed : Embed)
    (h : team_rows t db ≠ []) : (buildEntry t db embed).embeddings ≠ [] := by
  simp only [buildEntry, ne_eq, List.map_eq_nil_iff]
  exact h

theorem buildEntry_getD_mem (t : Str) (db : DB) (embed : Embed) (idx : Nat)
    (hidx : idx < (buildEntry t db embed).embeddings.length) :
    ∃ q ∈ db.properties,
      q.property_id = (buildEntry t db embed).prop_ids.getD idx [] ∧ q.team_id = t := by
  have hlen : idx < ((team_rows t db).map Prod.fst).length := by
    simpa [buildEntry] using hidx
  have hmem : (buildEntry t db embed).prop_ids.getD idx [] ∈ (team_rows t db).map Prod.fst := by
    show ((team_rows t db).map Prod.fst).getD idx [] ∈ _
    rw [List.getD_eq_getElem?_getD, List.getElem?_eq_getElem hlen]
    exact List.getElem_mem hlen
  obtain ⟨pr, hpr, hfst⟩ := List.mem_map.mp hmem
  obtain ⟨q, hq, hpid, hteam⟩ := team_rows_row_mem t db pr hpr
  exact ⟨q, hq, by rw [hpid, hfst], hteam⟩

/-- C4 counterexample data: property `PB` belongs to team `B`; listing `LA`
carries `PB` as a trusted pre-assignment; the match request is for team
`A`. -/
def cexPropTeamB : Property :=
  ⟨strL "PB", strL "B", strL "5 oak st", [], [], [], [], strL "5 oak st", [], []⟩

def cexListingTeamA : Listing :=
  ⟨strL "LA", some (strL "PB"), strL "A", [], [], [], [], [], some (strL "5 oak st"), []⟩

def cexDBC4 : DB := ⟨[cexPropTeamB], [cexListingTeamA]⟩

/-- C4 counterexample: a match request for team `A` returns the identifier
`"PB"` of a property that belongs to team `B` — the stage-0 pre-match
returns the trusted prior assignment without any team check. -/
theorem match_listing_cross_team_counterexample :
    cexPropTeamB ∈ cexDBC4.properties
    ∧ cexPropTeamB.property_id = strL "PB"
    ∧ cexPropTeamB.team_id = strL "B"
    ∧ strL "B" ≠ strL "A"
    ∧ match_listing (strL "LA") (strL "A") (some (strL "5 oak st")) cexDBC4 exEmbed []
        = .ok ((some (strL "PB"), 1), []) := by
  refine ⟨by simp [cexDBC4], rfl, rfl, by decide, by rfl⟩

/-- C4 (amended): every stage after the pre-match confines candidates to the
requesting team: a non-null identifier produced at any stage other than
stage 0 names a property of the requesting team and — property identifiers
being globally unique — of no other team.  The claim as stated fails at
stage 0, which returns a pre-assigned identifier without any team check. -/
theorem match_listing_team_confined (listing_id team_id : Str)
    (listing_address : Option Str) (db : DB) (embed : Embed) (cache : Cache)
    (st : Stage) (pid : Str) (c : ℚ) (cache' : Cache)
    (hwf : DBWF db) (hcwf : CacheWF db embed cache)
    (h : match_listing_staged listing_id team_id listing_address db embed cache
        = .ok ((st, some pid, c), cache'))
    (hst : st ≠ .preMatch) :
    (∃ q ∈ db.properties, q.property_id = pid ∧ q.team_id = team_id)
    ∧ (∀ q ∈ db.properties, q.property_id = pid → q.team_id = team_id) := by
  have main : ∃ q ∈ db.properties, q.property_id = pid ∧ q.team_id = team_id := by
    unfold match_listing_staged at h
    split at h
    case isFalse => simp at h
    split at h
    case h_1 => simp at h
    rename_i existing heq0
    split at h
    case isTrue htr0 =>
      simp only [Except.ok.injEq, Prod.mk.injEq] at h
      exact absurd h.1.1.symm hst
    rename_i hntr0
    split at h
    case h_1 => simp at h
    rename_i exactv heq1
    split at h
    case isTrue htr1 =>
      simp only [Except.ok.injEq, Prod.mk.injEq] at h
      obtain ⟨⟨hst1, hpd, hc1⟩, hcc⟩ := h
      have hex : exact_query team_id (normalize_addr listing_address) db = [pid] :=
        scalar_one_or_none_ok_some _ _ (by rw [heq1, hpd])
      exact exact_query_mem _ _ _ _ (by rw [hex]; exact List.mem_cons_self pid [])
    rename_i hntr1
    split at h
    case h_1 => simp at h
    case h_2 => simp at h
    rename_i res cache2 heqres
    obtain ⟨hres_be, hrows_ne, hcwf'⟩ :=
      team_resources_ok team_id db embed cache res cache2 hcwf heqres
    subst hres_be
    split at h
    case isTrue hconf =>
      simp only [Except.ok.injEq, Prod.mk.injEq, Option.some.injEq] at h
      obtain ⟨⟨hst1, hpd, hc1⟩, hcc⟩ := h
      have hne := buildEntry_embs_ne_nil team_id db embed hrows_ne
      have hidx := searchTop_idx_lt (buildEntry team_id db embed).embeddings
        (embed (normalize_addr listing_address)) hne
      obtain ⟨q, hq, hqpid, hqteam⟩ := buildEntry_getD_mem team_id db embed _ hidx
      exact ⟨q, hq, by rw [hqpid, hpd], hqteam⟩
    rename_i hnconf
    split at h
    case h_1 => simp at h
    rename_i bldgv heq3
    split at h
    case isTrue htr3 =>
      simp only [Except.ok.injEq, Prod.mk.injEq] at h
      obtain ⟨⟨hst1, hpd, hc1⟩, hcc⟩ := h
      have hbq : street_query team_id (buildingBase (normalize_addr listing_address)) db
          = [pid] := scalar_one_or_none_ok_some _ _ (by rw [heq3, hpd])
      exact street_query_mem _ _ _ _ (by rw [hbq]; exact List.mem_cons_self pid [])
    rename_i hntr3
    split at h
    case isTrue hconf2 =>
      simp only [Except.ok.injEq, Prod.mk.injEq, Option.some.injEq] at h
      obtain ⟨⟨hst1, hpd, hc1⟩, hcc⟩ := h
      have hne := buildEntry_embs_ne_nil team_id db embed hrows_ne
      have hidx := searchTop_idx_lt (buildEntry team_id db embed).embeddings
        (embed (buildingBase (normalize_addr listing_address))) hne
      obtain ⟨q, hq, hqpid, hqteam⟩ := buildEntry_getD_mem team_id db embed _ hidx
      exact ⟨q, hq, by rw [hqpid, hpd], hqteam⟩
    case isFalse => simp at h
  refine ⟨main, ?_⟩
  obtain ⟨q, hq, hqpid, hqteam⟩ := main
  intro q' hq' hpid'
  by_cases heqq : q' = q
  · rw [heqq]
    exact hqteam
  · have hdiff := List.Pairwise.forall (fun a b hab => fun e => hab e.symm)
      hwf.property_ids_unique hq' hq heqq
    exact absurd (hpid'.trans hqpid.symm) hdiff

theorem match_listing_team_confined_witness :
    (∃ q ∈ exDB.properties, q.property_id = strL "P1" ∧ q.team_id = strL "T1")
    ∧ (∀ q ∈ exDB.properties, q.property_id = strL "P1" → q.team_id = strL "T1") :=
  match_listing_team_confined (strL "L1") (strL "T1") (some (strL "123 Main St"))
    exDB exEmbed [] Stage.exactMatch (strL "P1") 1 []
    ⟨by decide, by decide, by decide, by decide⟩
    (by intro t e hl; simp [lookupCache] at hl)
    (by rfl) (by simp)

/-!
## C5 — confidence rescale bounds
-/

/-- The similarity returned by a nearest-neighbour search over an entry
built from unit-norm embeddings, queried with a unit-norm vector, lies in
`[-1, 1]`. -/
theorem searchTop_sim_bounds (t : Str) (db : DB) (embed : Embed) (q : Vec)
    (hunit : ∀ t' : Str, dot (embed t') (embed t') = 1)
    (hq : dot q q = 1)
    (hrows : team_rows t db ≠ []) :
    -1 ≤ (searchTop (buildEntry t db embed).embeddings q).1
      ∧ (searchTop (buildEntry t db embed).embeddings q).1 ≤ 1 := by
  have hne := buildEntry_embs_ne_nil t db embed hrows
  have hmem := searchTop_sim_mem (buildEntry t db embed).embeddings q hne
  obtain ⟨e, hemem, hdot⟩ := List.mem_map.mp hmem
  obtain ⟨txt, htmem, htxt⟩ := List.mem_map.mp (by
    simpa [buildEntry] using hemem :
      e ∈ ((team_rows t db).map Prod.snd).map embed)
  rw [← hdot, ← htxt]
  exact dot_unit_bounds _ _ (hunit txt) hq

/-- All confidences produced by a run of the pipeline (with the embedding
provider honouring its unit-norm contract) lie in `[0, 1]`. -/
theorem match_listing_conf_bounds (listing_id team_id : Str)
    (listing_address : Option Str) (db : DB) (embed : Embed) (cache : Cache)
    (st : Stage) (pid : Option Str) (c : ℚ) (cache' : Cache)
    (hunit : ∀ t : Str, dot (embed t) (embed t) = 1)
    (hcwf : CacheWF db embed cache)
    (h : match_listing_staged listing_id team_id listing_address db embed cache
        = .ok ((st, pid, c), cache')) :
    0 ≤ c ∧ c ≤ 1 := by
  unfold match_listing_staged at h
  split at h
  case isFalse =>
    simp only [Except.ok.injEq, Prod.mk.injEq] at h
    rw [← h.1.2.2]
    norm_num
  split at h
  case h_1 => simp at h
  rename_i existing heq0
  split at h
  case isTrue htr0 =>
    simp only [Except.ok.injEq, Prod.mk.injEq] at h
    rw [← h.1.2.2]
    norm_num
  rename_i hntr0
  split at h
  case h_1 => simp at h
  rename_i exactv heq1
  split at h
  case isTrue htr1 =>
    simp only [Except.ok.injEq, Prod.mk.injEq] at h
    rw [← h.1.2.2]
    norm_num
  rename_i hntr1
  split at h
  case h_1 =>
    simp only [Except.ok.injEq, Prod.mk.injEq] at h
    rw [← h.1.2.2]
    norm_num
  case h_2 => simp at h
  rename_i res cache2 heqres
  obtain ⟨hres_be, hrows_ne, hcwf'⟩ :=
    team_resources_ok team_id db embed cache res cache2 hcwf heqres
  subst hres_be
  split at h
  case isTrue hconf =>
    simp only [Except.ok.injEq, Prod.mk.injEq] at h
    rw [← h.1.2.2]
    obtain ⟨hlo, hhi⟩ := searchTop_sim_bounds team_id db embed
      (embed (normalize_addr listing_address)) hunit (hunit _) hrows_ne
    unfold fuzzyConf
    constructor <;> nlinarith
  rename_i hnconf
  split at h
  case h_1 => simp at h
  rename_i bldgv heq3
  split at h
  case isTrue htr3 =>
    simp only [Except.ok.injEq, Prod.mk.injEq] at h
    rw [← h.1.2.2]
    norm_num
  rename_i hntr3
  split at h
  case isTrue hconf2 =>
    simp only [Except.ok.injEq, Prod.mk.injEq] at h
    rw [← h.1.2.2]
    obtain ⟨hlo, hhi⟩ := searchTop_sim_bounds team_id db embed
      (embed (buildingBase (normalize_addr listing_address))) hunit (hunit _) hrows_ne
    unfold buildingFuzzyConf
    constructor <;> nlinarith
  case isFalse =>
    simp only [Except.ok.injEq, Prod.mk.injEq] at h
    rw [← h.1.2.2]
    norm_num

/-- C5: for every cosine similarity `s ∈ [-1, 1]` the stage-2 confidence
`s*0.5+0.5` lies in `[0, 1]`; the stage-3b confidence equals exactly `0.9`
times the stage-2 value for the same similarity (hence is at most `0.9`);
and every confidence the pipeline returns under the provider's unit-norm
contract lies in `[0.0, 1.0]` — by construction of the formulas, with no
separate clamping step in the code. -/
theorem confidence_rescale_bounds :
    (∀ s : ℚ, -1 ≤ s → s ≤ 1 → 0 ≤ fuzzyConf s ∧ fuzzyConf s ≤ 1)
    ∧ (∀ s : ℚ, buildingFuzzyConf s = 0.9 * fuzzyConf s)
    ∧ (∀ s : ℚ, -1 ≤ s → s ≤ 1 → buildingFuzzyConf s ≤ 0.9)
    ∧ (∀ (listing_id team_id : Str) (listing_address : Option Str) (db : DB)
        (embed : Embed) (cache : Cache) (pid : Option Str) (c : ℚ) (cache' : Cache),
        (∀ t : Str, dot (embed t) (embed t) = 1) →
        CacheWF db embed cache →
        match_listing listing_id team_id listing_address db embed cache
          = .ok ((pid, c), cache') →
        0 ≤ c ∧ c ≤ 1) := by
  refine ⟨?_, ?_, ?_, ?_⟩
  · intro s h1 h2
    unfold fuzzyConf
    constructor <;> nlinarith
  · intro s
    unfold buildingFuzzyConf fuzzyConf
    ring
  · intro s h1 h2
    unfold buildingFuzzyConf
    nlinarith
  · intro listing_id team_id listing_address db embed cache pid c cache' hunit hcwf hm
    unfold match_listing at hm
    cases hs : match_listing_staged listing_id team_id listing_address db embed cache with
    | error e =>
      rw [hs] at hm
      simp [Except.map] at hm
    | ok r =>
      rw [hs] at hm
      simp only [Except.map, Except.ok.injEq, Prod.mk.injEq] at hm
      obtain ⟨⟨hp, hc⟩, hcc⟩ := hm
      subst hp
      subst hc
      exact match_listing_conf_bounds listing_id team_id listing_address db embed cache
        r.1.1 r.1.2.1 r.1.2.2 r.2 hunit hcwf (by rw [hs])

theorem confidence_rescale_bounds_witness :
    (0 ≤ fuzzyConf 0.9 ∧ fuzzyConf 0.9 ≤ 1)
    ∧ buildingFuzzyConf 0.9 = 0.9 * fuzzyConf 0.9
    ∧ buildingFuzzyConf 0.9 ≤ 0.9
    ∧ (0 ≤ (1 : ℚ) ∧ (1 : ℚ) ≤ 1) := by
  obtain ⟨h1, h2, h3, h4⟩ := confidence_rescale_bounds
  refine ⟨h1 0.9 (by norm_num) (by norm_num), h2 0.9, h3 0.9 (by norm_num) (by norm_num), ?_⟩
  exact h4 (strL "L1") (strL "T1") (some (strL "123 Main St")) exDB exEmbed []
    (some (strL "P1")) 1 []
    (fun t => by norm_num [exEmbed, dot])
    (fun t e hl => by simp [lookupCache] at hl)
    (by rfl)

/-!
## C10 — a hyphen-free address never terminates at stage 3b
-/

theorem buildingBase_no_hyphen (a : Option Str) (h : '-' ∉ normalize_addr a) :
    buildingBase (normalize_addr a) = normalize_addr a := by
  unfold buildingBase
  rw [takeWhile_eq_self_of_not_mem _ _ h]
  exact pyStrip_normalize a

/-- C10: for a listing whose normalized address contains no hyphen, the
building truncation is the identity, so the stage-3b query and similarity
coincide with stage 2's; the `0.9` discount then keeps `conf2` strictly
below `MIN_CONFIDENCE` whenever stage 3b is reached, and the pipeline never
terminates at stage 3b — it matches at stages 0-3 or abstains. -/
theorem no_hyphen_no_building_fuzzy (listing_id team_id : Str)
    (listing_address : Option Str) (db : DB) (embed : Embed) (cache : Cache)
    (st : Stage) (pid : Option Str) (c : ℚ) (cache' : Cache)
    (hnd : '-' ∉ normalize_addr listing_address)
    (h : match_listing_staged listing_id team_id listing_address db embed cache
        = .ok ((st, pid, c), cache')) :
    buildingBase (normalize_addr listing_address) = normalize_addr listing_address
    ∧ st ≠ .buildingFuzzy := by
  refine ⟨buildingBase_no_hyphen listing_address hnd, ?_⟩
  intro hbf
  subst hbf
  unfold match_listing_staged at h
  repeat' split at h
  all_goals simp only [Except.ok.injEq, Prod.mk.injEq, reduceCtorEq,
    false_and, and_false] at h
  rename_i hnconf xS bldgv heqS hntrS hconf2
  rw [buildingBase_no_hyphen listing_address hnd] at hconf2
  unfold fuzzyConf at hnconf
  unfold buildingFuzzyConf at hconf2
  unfold MIN_CONFIDENCE at hnconf hconf2
  push_neg at hnconf
  nlinarith [hnconf, hconf2]

theorem no_hyphen_no_building_fuzzy_witness :
    buildingBase (normalize_addr (some (strL "123 Main St")))
      = normalize_addr (some (strL "123 Main St"))
    ∧ Stage.exactMatch ≠ Stage.buildingFuzzy :=
  no_hyphen_no_building_fuzzy (strL "L1") (strL "T1") (some (strL "123 Main St"))
    exDB exEmbed [] Stage.exactMatch (some (strL "P1")) 1 []
    (by decide) (by rfl)
